import Mathlib

/-!
Verification development for the jedi-vim integration layer
(`vimfiles/jedi_vim.py`): a shallow embedding of the subprocess bridge
(`JediRemote`), the error-wrapping decorator, the rename routine and the
completion find-start loop, with theorems settling the specification
claims about them.

Conventions of the embedding:
* Python values travelling over the JSON pipe are modelled by `JVal`;
  decoded JSON objects are association lists `List (String × JVal)`.
* Side effects (pipe writes/reads, editor commands) are modelled as
  explicit event traces.
* Raising an exception is modelled with `Except PyErr`.
* The mutable state of a `JediRemote` object is `JediState`: the
  `_process` attribute plus an abstract frame `otherAttrs` standing for
  any further attribute the object could carry; methods are state
  transformers.
-/

/-- Model of a JSON value (the payloads of `json.dumps` / `json.loads`). -/
inductive JVal where
  | null
  | bool (b : Bool)
  | num (n : Int)
  | str (s : String)
  | arr (xs : List JVal)
  | obj (fields : List (String × JVal))

/-- Lower-case hexadecimal digit, as produced by Python's json encoder. -/
def hexDigit (n : Nat) : Char :=
  if n < 10 then Char.ofNat (48 + n) else Char.ofNat (87 + n)

/-- Four-digit hexadecimal rendering used in a JSON unicode escape. -/
def hex4 (n : Nat) : String :=
  String.mk [hexDigit (n / 4096 % 16), hexDigit (n / 256 % 16),
             hexDigit (n / 16 % 16), hexDigit (n % 16)]

/-- JSON unicode escape sequence for one code unit. -/
def uEscape (n : Nat) : String := "\\u" ++ hex4 n

/-- Escaping of one character in a JSON string literal, following
`json.dumps` with its default `ensure_ascii=True` (short escapes for the
usual control characters, unicode escapes with surrogate pairs for
anything outside printable ASCII). -/
def escChar (c : Char) : String :=
  if c = '\\' then "\\\\"
  else if c = '"' then "\\\""
  else if c = Char.ofNat 8 then "\\b"
  else if c = Char.ofNat 9 then "\\t"
  else if c = Char.ofNat 10 then "\\n"
  else if c = Char.ofNat 12 then "\\f"
  else if c = Char.ofNat 13 then "\\r"
  else if c.toNat < 32 then uEscape c.toNat
  else if c.toNat < 127 then String.singleton c
  else if c.toNat < 65536 then uEscape c.toNat
  else uEscape (55296 + (c.toNat - 65536) / 1024) ++
       uEscape (56320 + (c.toNat - 65536) % 1024)

/-- JSON string literal for `s`. -/
def jsonQuote (s : String) : String :=
  "\"" ++ String.join (s.data.map escChar) ++ "\""

mutual

/-- Model of `json.dumps` with the default separators of the Python
standard library. -/
def dumps : JVal → String
  | JVal.null => "null"
  | JVal.bool true => "true"
  | JVal.bool false => "false"
  | JVal.num n => toString n
  | JVal.str s => jsonQuote s
  | JVal.arr xs => "[" ++ dumpsArr xs ++ "]"
  | JVal.obj fs => "\x7b" ++ dumpsObj fs ++ "\x7d"

/-- Comma-separated rendering of the elements of a JSON array. -/
def dumpsArr : List JVal → String
  | [] => ""
  | [x] => dumps x
  | x :: y :: rest => dumps x ++ ", " ++ dumpsArr (y :: rest)

/-- Comma-separated rendering of the members of a JSON object. -/
def dumpsObj : List (String × JVal) → String
  | [] => ""
  | [kv] => jsonQuote kv.1 ++ ": " ++ dumps kv.2
  | kv :: p :: rest => jsonQuote kv.1 ++ ": " ++ dumps kv.2 ++ ", " ++ dumpsObj (p :: rest)

end

/-- Request envelope built by `JediRemote._call`:
`json.dumps({'func': func, 'args': args, 'kwargs': kwargs})`, with the
insertion order `func`, `args`, `kwargs` of the source dict literal. -/
def envelopeJson (func : String) (args : List JVal) (kwargs : List (String × JVal)) : JVal :=
  JVal.obj [("func", JVal.str func), ("args", JVal.arr args), ("kwargs", JVal.obj kwargs)]

/-- Handle to a worker subprocess. `running = true` models
`poll() is None` (the process has not exited). -/
structure Proc where
  pid : Nat
  running : Bool
deriving DecidableEq

/-- Attribute state of a `JediRemote` object: the `_process` attribute,
plus an abstract frame `otherAttrs` for any other attribute name (used to
state that the methods neither read nor write anything else). -/
structure JediState where
  _process : Option Proc
  otherAttrs : String → Nat

/-- Event on the worker's pipes: a write of bytes to the worker's input
stream, a flush, or one blocking line read from its output stream. -/
inductive PipeEvent where
  | write (s : String)
  | flush
  | readLine

/-- Effect on the worker process itself. -/
inductive ProcEffect where
  | terminate (p : Proc)

/-- Model of a raised Python exception, covering the exceptions the
bridge code can raise and the classes `catch_and_print_exceptions`
catches. -/
inductive PyErr where
  | notFoundError
  | exception (msg : String)
  | keyError (key : String)
  | attributeError
  | vimError (msg : String)

/-- Model of the `JediRemote.process` property: spawn a fresh worker
when `not (self._process and self._process.poll() is None)`, otherwise
return the held handle unchanged. The fresh handle that `subprocess.Popen`
would produce is passed in as `fresh`. -/
def process (st : JediState) (fresh : Proc) : JediState × Proc :=
  match st._process with
  | some p => if p.running then (st, p) else (⟨some fresh, st.otherAttrs⟩, fresh)
  | none => (⟨some fresh, st.otherAttrs⟩, fresh)

/-- Model of `JediRemote.reload`: terminate the worker if one is held and
clear the handle. -/
def reload (st : JediState) : JediState × List ProcEffect :=
  match st._process with
  | some p => (⟨none, st.otherAttrs⟩, [ProcEffect.terminate p])
  | none => (st, [])

/-- Model of `JediRemote.__del__`, whose body is identical to `reload`. -/
def __del__ (st : JediState) : JediState × List ProcEffect :=
  match st._process with
  | some p => (⟨none, st.otherAttrs⟩, [ProcEffect.terminate p])
  | none => (st, [])

/-- Model of Python's `str.startswith`. -/
def startswith (s pre : String) : Bool := pre.data.isPrefixOf s.data

/-- Truth value of the Python comparison `x == 'ok'` for a decoded JSON
value `x` (false on every non-string). -/
def jvalEqOk (c : JVal) : Bool :=
  match c with
  | JVal.str s => s == "ok"
  | _ => false

/-- Reply handling of `JediRemote._call` on the decoded reply object:
return `ret['return']` when `ret['code'] == 'ok'`, raise
`jedi.NotFoundError` when `ret['message']` starts with
`jedi.api.NotFoundError`, raise `Exception(ret['message'])` otherwise.
Missing keys raise `KeyError`; `startswith` on a non-string raises
`AttributeError`, as the Python subscript and method lookup would. -/
def handleReply (ret : List (String × JVal)) : Except PyErr JVal :=
  match ret.lookup ("code") with
  | none => Except.error (PyErr.keyError ("code"))
  | some c =>
    if jvalEqOk c then
      match ret.lookup ("return") with
      | none => Except.error (PyErr.keyError ("return"))
      | some v => Except.ok v
    else
      match ret.lookup ("message") with
      | none => Except.error (PyErr.keyError ("message"))
      | some (JVal.str m) =>
          if startswith m ("jedi.api.NotFoundError") then Except.error PyErr.notFoundError
          else Except.error (PyErr.exception m)
      | some _ => Except.error PyErr.attributeError

/-- Model of `JediRemote._call`: serialize the envelope, write it and a
newline to the worker's input stream, flush, read one line from the
worker's output stream, and dispatch on the decoded reply (`reply` is the
decoded JSON object of that line). Each of the four `self.process`
accesses of the source goes through the `process` property. Produces the
final state, the pipe-event trace, and the returned value or raised
exception. -/
def _call (st : JediState) (fresh : Proc) (func : String) (args : List JVal)
    (kwargs : List (String × JVal)) (reply : List (String × JVal)) :
    JediState × List PipeEvent × Except PyErr JVal :=
  let data := dumps (envelopeJson func args kwargs)
  let s1 := (process st fresh).1
  let s2 := (process s1 fresh).1
  let s3 := (process s2 fresh).1
  let s4 := (process s3 fresh).1
  (s4, [PipeEvent.write data, PipeEvent.write ("\n"), PipeEvent.flush, PipeEvent.readLine],
   handleReply reply)

/-- Model of `JediRemote.__getattr__`: an undefined attribute named
`name` yields a callable that performs `self._call(name, *args, **kwargs)`. -/
def __getattr__ (name : String) :
    JediState → Proc → List JVal → List (String × JVal) → List (String × JVal) →
    JediState × List PipeEvent × Except PyErr JVal :=
  fun st fresh args kwargs reply => _call st fresh name args kwargs reply

/-- Content of a pipe event when it is a write. -/
def writeContent (e : PipeEvent) : Option String :=
  match e with
  | PipeEvent.write s => some s
  | _ => none

/-- Bytes written to the worker's input stream over a trace. -/
def writtenBytes (tr : List PipeEvent) : String :=
  String.join (tr.filterMap writeContent)

/-- Whether a pipe event is a blocking line read. -/
def isReadEvent (e : PipeEvent) : Bool :=
  match e with
  | PipeEvent.readLine => true
  | _ => false

/-- Whether a pipe event is a write. -/
def isWriteEvent (e : PipeEvent) : Bool :=
  match e with
  | PipeEvent.write _ => true
  | _ => false

/-- Live worker handles held by a state (a list of length at most one,
since the object has a single `_process` slot). -/
def liveWorkers (st : JediState) : List Proc :=
  match st._process with
  | some p => if p.running then [p] else []
  | none => []

/-- Short description of an exception, used in its traceback text. -/
def pyErrText (e : PyErr) : String :=
  match e with
  | PyErr.notFoundError => "jedi.api.NotFoundError"
  | PyErr.exception m => "Exception: " ++ m
  | PyErr.keyError k => "KeyError: " ++ k
  | PyErr.attributeError => "AttributeError"
  | PyErr.vimError m => "vim.error: " ++ m

/-- Model of `traceback.format_exc()` for a raised exception. -/
def format_exc (e : PyErr) : String :=
  "Traceback (most recent call last):\n" ++ pyErrText e

/-- Model of the `catch_and_print_exceptions` decorator: run the wrapped
function; on a raised exception (`Exception` or `vim.error`, which is all
of `PyErr`), print the traceback and return `None`. The result pairs the
wrapper's return value with the list of printed messages. -/
def catch_and_print_exceptions {α β : Type} (func : α → Except PyErr β) :
    α → Option β × List String :=
  fun a =>
    match func a with
    | Except.ok b => (some b, [])
    | Except.error e => (none, [format_exc e])

/-- Sample wrapped callback used to exercise the decorator model. -/
def sampleCallback (n : Nat) : Except PyErr Nat :=
  if n = 0 then Except.error (PyErr.exception ("boom")) else Except.ok (n + 1)

/-- Helper: the Python test `x == 'ok'` succeeds exactly on the JSON string `ok`. -/
theorem jvalEqOk_eq_true_iff (c : JVal) : jvalEqOk c = true ↔ c = JVal.str ("ok") := by
  cases c <;> simp [jvalEqOk]

/-- Helper: the `process` property never changes any attribute other than `_process`. -/
theorem process_fst_otherAttrs (st : JediState) (fresh : Proc) :
    (process st fresh).1.otherAttrs = st.otherAttrs := by
  cases hsp : st._process with
  | none => simp [process, hsp]
  | some p => cases hrun : p.running <;> simp [process, hsp, hrun]

/-- Helper: the outcome of the `process` property depends only on the
`_process` attribute of the state. -/
theorem process_only_process (s t : JediState) (fresh : Proc) (h : s._process = t._process) :
    (process s fresh).1._process = (process t fresh).1._process ∧
    (process s fresh).2 = (process t fresh).2 := by
  cases hsp : s._process with
  | none =>
    rw [hsp] at h
    constructor <;> simp [process, hsp, ← h]
  | some p =>
    rw [hsp] at h
    cases hrun : p.running <;> (constructor <;> simp [process, hsp, ← h, hrun])

/-- Helper: the final state of `_call` depends only on the `_process`
attribute of the initial state. -/
theorem call_state_only_process (s t : JediState) (fresh : Proc) (func : String)
    (args : List JVal) (kwargs : List (String × JVal)) (reply : List (String × JVal))
    (h : s._process = t._process) :
    (_call s fresh func args kwargs reply).1._process
      = (_call t fresh func args kwargs reply).1._process := by
  have h1 := process_only_process s t fresh h
  have h2 := process_only_process _ _ fresh h1.1
  have h3 := process_only_process _ _ fresh h2.1
  have h4 := process_only_process _ _ fresh h3.1
  simpa [_call] using h4.1

/-- Claim C1: for every bridge call, `JediRemote._call` writes exactly one
JSON-serialized envelope followed by a single trailing newline to the
worker's input stream, then performs exactly one blocking line read from
the worker's output stream, with no further write or read for that call. -/
theorem call_single_write_single_read (st : JediState) (fresh : Proc) (func : String)
    (args : List JVal) (kwargs : List (String × JVal)) (reply : List (String × JVal)) :
    writtenBytes (_call st fresh func args kwargs reply).2.1
      = dumps (envelopeJson func args kwargs) ++ "\n" ∧
    ((_call st fresh func args kwargs reply).2.1.filter isReadEvent).length = 1 ∧
    ((_call st fresh func args kwargs reply).2.1.dropWhile (fun e => !isReadEvent e)).all
      (fun e => !isWriteEvent e) = true := by
  refine ⟨?_, ?_, ?_⟩ <;>
    simp [_call, writtenBytes, writeContent, isReadEvent, isWriteEvent, String.join]

/-- Claim C2: `_call` returns the reply's `return` field when the reply's
`code` field equals `ok`; otherwise it raises, and the exception raised is
derived from the reply's `message` field; it raises if and only if `code`
differs from `ok`. -/
theorem call_raises_iff_code_not_ok (st : JediState) (fresh : Proc) (func : String)
    (args : List JVal) (kwargs : List (String × JVal)) (reply : List (String × JVal))
    (c : JVal) (hc : reply.lookup ("code") = some c)
    (hok : c = JVal.str ("ok") → ∃ v, reply.lookup ("return") = some v)
    (herr : c ≠ JVal.str ("ok") → ∃ m, reply.lookup ("message") = some (JVal.str m)) :
    (∀ v, reply.lookup ("return") = some v → c = JVal.str ("ok") →
       (_call st fresh func args kwargs reply).2.2 = Except.ok v) ∧
    (∀ m, reply.lookup ("message") = some (JVal.str m) → c ≠ JVal.str ("ok") →
       (_call st fresh func args kwargs reply).2.2 =
         Except.error (if startswith m ("jedi.api.NotFoundError") then PyErr.notFoundError
                       else PyErr.exception m)) ∧
    ((∃ e, (_call st fresh func args kwargs reply).2.2 = Except.error e) ↔
       c ≠ JVal.str ("ok")) := by
  have hres : (_call st fresh func args kwargs reply).2.2 = handleReply reply := rfl
  refine ⟨?_, ?_, ?_, ?_⟩
  · intro v hv hcok
    subst hcok
    simp [hres, handleReply, hc, jvalEqOk, hv]
  · intro m hm hcne
    have hfalse : jvalEqOk c = false := by
      cases hh : jvalEqOk c
      · rfl
      · exact absurd ((jvalEqOk_eq_true_iff c).1 hh) hcne
    simp [hres, handleReply, hc, hfalse, hm]
    split <;> rfl
  · rintro ⟨e, he⟩ hcok
    subst hcok
    obtain ⟨v, hv⟩ := hok rfl
    rw [hres] at he
    simp [handleReply, hc, jvalEqOk, hv] at he
  · intro hcne
    obtain ⟨m, hm⟩ := herr hcne
    have hfalse : jvalEqOk c = false := by
      cases hh : jvalEqOk c
      · rfl
      · exact absurd ((jvalEqOk_eq_true_iff c).1 hh) hcne
    cases hsw : startswith m ("jedi.api.NotFoundError")
    · exact ⟨PyErr.exception m, by simp [hres, handleReply, hc, hfalse, hm, hsw]⟩
    · exact ⟨PyErr.notFoundError, by simp [hres, handleReply, hc, hfalse, hm, hsw]⟩

/-- Witness for claim C2 at a concrete successful reply. -/
theorem call_raises_iff_code_not_ok_witness :
    (_call ⟨none, fun _ => 0⟩ ⟨1, true⟩ ("completions") [] []
        [("code", JVal.str ("ok")), ("return", JVal.num 7)]).2.2 = Except.ok (JVal.num 7) :=
  (call_raises_iff_code_not_ok ⟨none, fun _ => 0⟩ ⟨1, true⟩ ("completions") [] []
      [("code", JVal.str ("ok")), ("return", JVal.num 7)] (JVal.str ("ok")) rfl
      (fun _ => ⟨JVal.num 7, rfl⟩) (fun h => absurd rfl h)).1 (JVal.num 7) rfl rfl

/-- Claim C3: the `process` property returns the held handle unchanged
when it exists and is still running, starts a fresh worker exactly when no
handle exists or the held process has exited, and a spawn can only happen
when no live worker is held. -/
theorem process_lazy_single_worker (st : JediState) (fresh : Proc) :
    (∀ p, st._process = some p → p.running = true → process st fresh = (st, p)) ∧
    ((st._process = none ∨ ∃ p, st._process = some p ∧ p.running = false) →
       (process st fresh).1._process = some fresh ∧ (process st fresh).2 = fresh) ∧
    ((process st fresh).1._process ≠ st._process → liveWorkers st = []) := by
  refine ⟨?_, ?_, ?_⟩
  · intro p hp hrun
    simp [process, hp, hrun]
  · rintro (hnone | ⟨p, hp, hrun⟩)
    · simp [process, hnone]
    · simp [process, hp, hrun]
  · intro hne
    cases hsp : st._process with
    | none => simp [liveWorkers, hsp]
    | some p =>
      cases hrun : p.running
      · simp [liveWorkers, hsp, hrun]
      · exact absurd (by simp [process, hsp, hrun]) hne

/-- Witness for claim C3 at a running worker handle: reading the property
returns it unchanged. -/
theorem process_lazy_single_worker_witness :
    process ⟨some ⟨3, true⟩, fun _ => 0⟩ ⟨4, true⟩
      = (⟨some ⟨3, true⟩, fun _ => 0⟩, ⟨3, true⟩) :=
  (process_lazy_single_worker ⟨some ⟨3, true⟩, fun _ => 0⟩ ⟨4, true⟩).1 ⟨3, true⟩ rfl rfl

/-- Claim C4: `catch_and_print_exceptions` forwards the wrapped function's
return value unchanged, and on any raised exception prints the traceback
and returns `None`; by its result type no exception propagates out of it. -/
theorem catch_and_print_exceptions_spec {α β : Type} (func : α → Except PyErr β) (a : α) :
    (∀ b, func a = Except.ok b → catch_and_print_exceptions func a = (some b, [])) ∧
    (∀ e, func a = Except.error e →
       catch_and_print_exceptions func a = (none, [format_exc e])) := by
  constructor
  · intro b hb
    simp [catch_and_print_exceptions, hb]
  · intro e he
    simp [catch_and_print_exceptions, he]

/-- Witness for claim C4 on a concrete callback, in both outcomes. -/
theorem catch_and_print_exceptions_spec_witness :
    catch_and_print_exceptions sampleCallback 3 = (some 4, []) ∧
    catch_and_print_exceptions sampleCallback 0
      = (none, [format_exc (PyErr.exception ("boom"))]) :=
  ⟨(catch_and_print_exceptions_spec sampleCallback 3).1 4 rfl,
   (catch_and_print_exceptions_spec sampleCallback 0).2 (PyErr.exception ("boom")) rfl⟩

/-- Claim C5: every operation of `JediRemote` (`_call`, the `process`
property, `reload`, `__del__`) writes no attribute other than `_process`
(all other attributes are preserved) and reads no attribute other than
`_process` (two states agreeing on `_process` produce the same `_process`
result, returned handle, effects, pipe trace and call outcome). -/
theorem jediRemote_touches_only_process (st st' : JediState) (fresh : Proc) (func : String)
    (args : List JVal) (kwargs : List (String × JVal)) (reply : List (String × JVal))
    (h : st._process = st'._process) :
    ((process st fresh).1.otherAttrs = st.otherAttrs ∧
     (reload st).1.otherAttrs = st.otherAttrs ∧
     (__del__ st).1.otherAttrs = st.otherAttrs ∧
     (_call st fresh func args kwargs reply).1.otherAttrs = st.otherAttrs) ∧
    ((process st fresh).1._process = (process st' fresh).1._process ∧
     (process st fresh).2 = (process st' fresh).2 ∧
     (reload st).1._process = (reload st').1._process ∧
     (reload st).2 = (reload st').2 ∧
     (__del__ st).1._process = (__del__ st').1._process ∧
     (__del__ st).2 = (__del__ st').2 ∧
     (_call st fresh func args kwargs reply).1._process
       = (_call st' fresh func args kwargs reply).1._process ∧
     (_call st fresh func args kwargs reply).2
       = (_call st' fresh func args kwargs reply).2) := by
  constructor
  · refine ⟨process_fst_otherAttrs st fresh, ?_, ?_, ?_⟩
    · cases hsp : st._process <;> simp [reload, hsp]
    · cases hsp : st._process <;> simp [__del__, hsp]
    · simp [_call, process_fst_otherAttrs]
  · refine ⟨(process_only_process st st' fresh h).1, (process_only_process st st' fresh h).2,
      ?_, ?_, ?_, ?_, call_state_only_process st st' fresh func args kwargs reply h, rfl⟩
    · cases hsp : st._process with
      | none =>
        rw [hsp] at h
        simp [reload, hsp, ← h]
      | some p =>
        rw [hsp] at h
        simp [reload, hsp, ← h]
    · cases hsp : st._process with
      | none =>
        rw [hsp] at h
        simp [reload, hsp, ← h]
      | some p =>
        rw [hsp] at h
        simp [reload, hsp, ← h]
    · cases hsp : st._process with
      | none =>
        rw [hsp] at h
        simp [__del__, hsp, ← h]
      | some p =>
        rw [hsp] at h
        simp [__del__, hsp, ← h]
    · cases hsp : st._process with
      | none =>
        rw [hsp] at h
        simp [__del__, hsp, ← h]
      | some p =>
        rw [hsp] at h
        simp [__del__, hsp, ← h]

/-- Witness for claim C5 at concrete states sharing `_process`. -/
theorem jediRemote_touches_only_process_witness :
    (process ⟨none, fun _ => 5⟩ ⟨1, true⟩).1.otherAttrs = (fun _ => 5 : String → Nat) :=
  (jediRemote_touches_only_process ⟨none, fun _ => 5⟩ ⟨none, fun _ => 6⟩ ⟨1, true⟩
      ("x") [] [] [] rfl).1.1

/-- Claim C6: accessing an undefined attribute `name` on `JediRemote`
yields a callable that performs exactly `_call(name, *args, **kwargs)`,
so the envelope it writes carries the attribute's own name as `func`. -/
theorem getattr_delegates_to_call (name : String) (st : JediState) (fresh : Proc)
    (args : List JVal) (kwargs : List (String × JVal)) (reply : List (String × JVal)) :
    __getattr__ name st fresh args kwargs reply = _call st fresh name args kwargs reply ∧
    writtenBytes (__getattr__ name st fresh args kwargs reply).2.1
      = dumps (envelopeJson name args kwargs) ++ "\n" := by
  constructor
  · rfl
  · simp [__getattr__, _call, writtenBytes, writeContent, String.join]

/-- Model of the findstart loop of `completions()`: iterate over the
reversed text before the cursor, stopping at the first character that does
not match the word regex, counting the characters passed. -/
def findstart_count (w : Char → Bool) : List Char → Nat
  | [] => 0
  | c :: rest => if w c then findstart_count w rest + 1 else 0

/-- Value the findstart branch returns to the editor:
`column - count` over the portion of the current line strictly before the
cursor column (`vim.current.line[:column]`). The word regex is abstracted
as the character predicate `w`. -/
def findstart_return (w : Char → Bool) (line : List Char) (column : Nat) : Nat :=
  column - findstart_count w ((line.take column).reverse)

/-- ASCII reading of the `[\w\d]` regex of the findstart loop (Python's
`\w` also covers the unicode word characters; the findstart theorem is
proved for an arbitrary character predicate). -/
def isWordChar (c : Char) : Bool := c.isAlphanum || c = '_'

/-- Helper: the findstart loop counts the matching run at the head of the
reversed text, i.e. a `takeWhile` length. -/
theorem findstart_count_eq_takeWhile (w : Char → Bool) (l : List Char) :
    findstart_count w l = (l.takeWhile w).length := by
  induction l with
  | nil => rfl
  | cons c rest ih =>
    cases hw : w c <;> simp [findstart_count, List.takeWhile_cons, hw, ih]

/-- Helper: the loop count never exceeds the scanned text's length. -/
theorem findstart_count_le_length (w : Char → Bool) (l : List Char) :
    findstart_count w l ≤ l.length := by
  rw [findstart_count_eq_takeWhile]
  exact (List.takeWhile_prefix w).sublist.length_le

/-- Helper: every character of the counted run satisfies the predicate. -/
theorem takeWhile_all (w : Char → Bool) (l : List Char) :
    (l.takeWhile w).all w = true := by
  induction l with
  | nil => rfl
  | cons c rest ih =>
    cases hw : w c <;> simp [List.takeWhile_cons, hw, ih]

/-- Helper: the counted run is maximal among all-matching prefixes. -/
theorem takeWhile_length_maximal (w : Char → Bool) (l : List Char) :
    ∀ k, k ≤ l.length → (l.take k).all w = true → k ≤ (l.takeWhile w).length := by
  induction l with
  | nil =>
    intro k hk _
    simpa using hk
  | cons c rest ih =>
    intro k hk hall
    cases k with
    | zero => exact Nat.zero_le _
    | succ j =>
      simp only [List.take_succ_cons, List.all_cons, Bool.and_eq_true] at hall
      simp only [List.takeWhile_cons, hall.1, List.length_cons]
      exact Nat.succ_le_succ (ih j (Nat.le_of_succ_le_succ hk) hall.2)

/-- Helper: taking the first `k` elements of the reversal is reversing the
last `k` elements. -/
theorem take_reverse_eq_reverse_drop (s : List Char) (k : Nat) :
    (s.reverse.take k).reverse = s.drop (s.length - k) := by
  have h := @List.reverse_take Char s.reverse k
  simpa using h

/-- Claim C9: in the findstart branch of `completions()`, the value
returned equals the cursor column minus the length of the maximal trailing
run of word characters in the line portion strictly before the cursor:
the counted trailing characters all match, no longer trailing all-matching
run exists, the count never exceeds the column, and when the character
just before the cursor is not a word character the column itself is
returned. -/
theorem completions_findstart_spec (w : Char → Bool) (line : List Char) (column : Nat) :
    findstart_return w line column
      = column - findstart_count w ((line.take column).reverse) ∧
    findstart_count w ((line.take column).reverse) ≤ column ∧
    ((line.take column).drop
        ((line.take column).length - findstart_count w ((line.take column).reverse))).all w
      = true ∧
    (∀ k, k ≤ (line.take column).length →
       ((line.take column).drop ((line.take column).length - k)).all w = true →
       k ≤ findstart_count w ((line.take column).reverse)) ∧
    (∀ c, (line.take column).getLast? = some c → w c = false →
       findstart_return w line column = column) := by
  refine ⟨rfl, ?_, ?_, ?_, ?_⟩
  · calc findstart_count w ((line.take column).reverse)
        ≤ (line.take column).reverse.length := findstart_count_le_length w _
      _ ≤ column := by simp [List.length_take]
  · rw [← take_reverse_eq_reverse_drop, List.all_reverse]
    have htake : (line.take column).reverse.take
        (findstart_count w ((line.take column).reverse))
        = (line.take column).reverse.takeWhile w := by
      rw [findstart_count_eq_takeWhile]
      exact (List.prefix_iff_eq_take.mp (List.takeWhile_prefix w)).symm
    rw [htake]
    exact takeWhile_all w _
  · intro k hk hall
    rw [← take_reverse_eq_reverse_drop, List.all_reverse] at hall
    rw [findstart_count_eq_takeWhile]
    exact takeWhile_length_maximal w _ k (by simpa using hk) hall
  · intro c hlast hw
    have hhead : (line.take column).reverse.head? = some c := by
      rw [← List.getLast?_eq_head?_reverse]
      exact hlast
    rcases hrev : (line.take column).reverse with _ | ⟨c', rest⟩
    · rw [hrev] at hhead
      cases hhead
    · rw [hrev] at hhead
      have hc : c' = c := by
        injection hhead
      subst hc
      unfold findstart_return
      rw [hrev]
      simp [findstart_count, hw]

/-- Witness for claim C9: with the cursor after `ab.`, the character
before the cursor is not a word character and the column is returned. -/
theorem completions_findstart_spec_witness :
    findstart_return isWordChar ("ab.cd".data) 3 = 3 :=
  (completions_findstart_spec isWordChar ("ab.cd".data) 3).2.2.2.2 '.' (by decide) (by decide)

/-- Usage site returned by the analysis library for a rename
(`goto(mode="related_name")`): file path, `(line, column)` positionings,
and whether it lies in a builtin module. -/
structure Usage where
  module_path : String
  start_pos : Nat × Nat
  in_builtin_module : Bool
deriving DecidableEq

/-- Sort key of the rename loop: `(x.module_path, x.start_pos)`. -/
def renameKey (u : Usage) : String × Nat × Nat := (u.module_path, u.start_pos)

/-- Python's `<` on strings viewed as character lists (lexicographic on
code points). -/
def charListLt : List Char → List Char → Bool
  | [], [] => false
  | [], _ :: _ => true
  | _ :: _, [] => false
  | a :: as, b :: bs => if a < b then true else if b < a then false else charListLt as bs

/-- Python's `<` on the `(module_path, start_pos)` tuples used as rename
keys (lexicographic tuple comparison). -/
def keyLt (a b : String × Nat × Nat) : Bool :=
  charListLt a.1.data b.1.data ||
    (a.1 == b.1 && (decide (a.2.1 < b.2.1) || (a.2.1 == b.2.1 && decide (a.2.2 < b.2.2))))

/-- Python's `<` on `(line, column)` position pairs. -/
def posLt (p q : Nat × Nat) : Bool :=
  decide (p.1 < q.1) || (p.1 == q.1 && decide (p.2 < q.2))

/-- Order in which `sorted(..., reverse=True, key=...)` may place `a`
before `b`: the key of `a` is not smaller than the key of `b`. -/
def renameLe (a b : Usage) : Bool := ! keyLt (renameKey a) (renameKey b)

/-- Stable insertion of one element into a reverse-sorted list, the
building block of the model of Python's stable `sorted`. -/
def insertDesc (x : Usage) : List Usage → List Usage
  | [] => [x]
  | y :: ys => if renameLe x y then x :: y :: ys else y :: insertDesc x ys

/-- Model of `sorted(usages, reverse=True, key=lambda x: (x.module_path,
x.start_pos))`: the stable sort placing larger keys first (stable sorting
is unique, so insertion sort gives exactly Python's result). -/
def sortedRename : List Usage → List Usage
  | [] => []
  | x :: xs => insertDesc x (sortedRename xs)

/-- Helper: `charListLt` is irreflexive. -/
theorem charListLt_irrefl (l : List Char) : charListLt l l = false := by
  induction l with
  | nil => rfl
  | cons a as ih => simp [charListLt, lt_irrefl, ih]

/-- Helper: `charListLt` is transitive. -/
theorem charListLt_trans : ∀ as bs cs : List Char, charListLt as bs = true →
    charListLt bs cs = true → charListLt as cs = true := by
  intro as
  induction as with
  | nil =>
    intro bs cs h1 h2
    cases bs with
    | nil => exact absurd h1 (by simp [charListLt])
    | cons b bs' =>
      cases cs with
      | nil => exact absurd h2 (by simp [charListLt])
      | cons c cs' => simp [charListLt]
  | cons a as' ih =>
    intro bs cs h1 h2
    cases bs with
    | nil => exact absurd h1 (by simp [charListLt])
    | cons b bs' =>
      cases cs with
      | nil => exact absurd h2 (by simp [charListLt])
      | cons c cs' =>
        by_cases hab : a < b
        · by_cases hbc : b < c
          · simp [charListLt, lt_trans hab hbc]
          · by_cases hcb : c < b
            · simp [charListLt, hbc, hcb] at h2
            · have hbceq : b = c := le_antisymm (not_lt.mp hcb) (not_lt.mp hbc)
              subst hbceq
              simp [charListLt, hab]
        · by_cases hba : b < a
          · simp [charListLt, hab, hba] at h1
          · have habeq : a = b := le_antisymm (not_lt.mp hba) (not_lt.mp hab)
            subst habeq
            simp only [charListLt, lt_irrefl, if_neg (lt_irrefl a), if_false] at h1
            by_cases hac : a < c
            · simp [charListLt, hac]
            · by_cases hca : c < a
              · simp [charListLt, hac, hca] at h2
              · have haceq : a = c := le_antisymm (not_lt.mp hca) (not_lt.mp hac)
                subst haceq
                simp only [charListLt, lt_irrefl, if_neg (lt_irrefl a), if_false] at h2 ⊢
                exact ih bs' cs' h1 h2

/-- Helper: two lists neither of which is `charListLt`-below the other are
equal. -/
theorem charListLt_connected : ∀ as bs : List Char, charListLt as bs = false →
    charListLt bs as = false → as = bs := by
  intro as
  induction as with
  | nil =>
    intro bs h1 _
    cases bs with
    | nil => rfl
    | cons b bs' => simp [charListLt] at h1
  | cons a as' ih =>
    intro bs h1 h2
    cases bs with
    | nil => simp [charListLt] at h2
    | cons b bs' =>
      by_cases hab : a < b
      · simp [charListLt, hab] at h1
      · by_cases hba : b < a
        · simp [charListLt, hba] at h2
        · have habeq : a = b := le_antisymm (not_lt.mp hba) (not_lt.mp hab)
          subst habeq
          simp only [charListLt, lt_irrefl, if_neg (lt_irrefl a), if_false] at h1 h2
          rw [ih bs' h1 h2]

/-- Helper: propositional reading of `keyLt`. -/
theorem keyLt_eq_true_iff (a b : String × Nat × Nat) :
    keyLt a b = true ↔ (charListLt a.1.data b.1.data = true ∨
      (a.1 = b.1 ∧ (a.2.1 < b.2.1 ∨ (a.2.1 = b.2.1 ∧ a.2.2 < b.2.2)))) := by
  simp [keyLt, Bool.or_eq_true, Bool.and_eq_true, decide_eq_true_eq, beq_iff_eq]

/-- Helper: `keyLt` is irreflexive. -/
theorem keyLt_irrefl (a : String × Nat × Nat) : keyLt a a = false := by
  simp [keyLt, charListLt_irrefl]

/-- Helper: `keyLt` is transitive. -/
theorem keyLt_trans (a b c : String × Nat × Nat) (h1 : keyLt a b = true)
    (h2 : keyLt b c = true) : keyLt a c = true := by
  rw [keyLt_eq_true_iff] at h1 h2 ⊢
  rcases h1 with h1 | ⟨he1, hp1⟩
  · rcases h2 with h2 | ⟨he2, _⟩
    · exact Or.inl (charListLt_trans _ _ _ h1 h2)
    · exact Or.inl (by rw [← he2]; exact h1)
  · rcases h2 with h2 | ⟨he2, hp2⟩
    · exact Or.inl (by rw [he1]; exact h2)
    · exact Or.inr ⟨he1.trans he2, by omega⟩

/-- Helper: two keys neither of which is below the other are equal. -/
theorem keyLt_connected (a b : String × Nat × Nat) (h1 : keyLt a b = false)
    (h2 : keyLt b a = false) : a = b := by
  obtain ⟨s1, m1, n1⟩ := a
  obtain ⟨s2, m2, n2⟩ := b
  have hn1 : ¬ (charListLt s1.data s2.data = true ∨
      (s1 = s2 ∧ (m1 < m2 ∨ (m1 = m2 ∧ n1 < n2)))) := fun hp =>
    absurd ((keyLt_eq_true_iff (s1, m1, n1) (s2, m2, n2)).mpr hp) (by simp [h1])
  have hn2 : ¬ (charListLt s2.data s1.data = true ∨
      (s2 = s1 ∧ (m2 < m1 ∨ (m2 = m1 ∧ n2 < n1)))) := fun hp =>
    absurd ((keyLt_eq_true_iff (s2, m2, n2) (s1, m1, n1)).mpr hp) (by simp [h2])
  push_neg at hn1 hn2
  have hcl1 : charListLt s1.data s2.data = false := by
    cases hcl : charListLt s1.data s2.data
    · rfl
    · exact absurd hcl hn1.1
  have hcl2 : charListLt s2.data s1.data = false := by
    cases hcl : charListLt s2.data s1.data
    · rfl
    · exact absurd hcl hn2.1
  have hsd : s1.data = s2.data := charListLt_connected _ _ hcl1 hcl2
  have hs : s1 = s2 := by
    cases s1
    cases s2
    exact congrArg String.mk hsd
  have hp1 := hn1.2 hs
  have hp2 := hn2.2 hs.symm
  have hm : m1 = m2 := by omega
  have hn : n1 = n2 := by omega
  rw [hs, hm, hn]

/-- Helper: the descending comparison used by the rename sort is total. -/
theorem renameLe_total (a b : Usage) : (renameLe a b || renameLe b a) = true := by
  cases hab : keyLt (renameKey a) (renameKey b)
  · simp [renameLe, hab]
  · cases hba : keyLt (renameKey b) (renameKey a)
    · simp [renameLe, hba]
    · have := keyLt_trans _ _ _ hab hba
      rw [keyLt_irrefl] at this
      cases this

/-- Helper: the descending comparison used by the rename sort is
transitive. -/
theorem renameLe_trans (a b c : Usage) (h1 : renameLe a b = true)
    (h2 : renameLe b c = true) : renameLe a c = true := by
  have h1' : keyLt (renameKey a) (renameKey b) = false := by
    simpa [renameLe] using h1
  have h2' : keyLt (renameKey b) (renameKey c) = false := by
    simpa [renameLe] using h2
  cases hac : keyLt (renameKey a) (renameKey c)
  · simp [renameLe, hac]
  · cases hba : keyLt (renameKey b) (renameKey a)
    · have hkeq := keyLt_connected _ _ h1' hba
      rw [hkeq] at hac
      rw [hac] at h2'
      cases h2'
    · have := keyLt_trans _ _ _ hba hac
      rw [this] at h2'
      cases h2'

/-- Helper: inserting into a reverse-sorted list permutes a cons. -/
theorem insertDesc_perm (x : Usage) (l : List Usage) : (insertDesc x l).Perm (x :: l) := by
  induction l with
  | nil => exact List.Perm.refl _
  | cons y ys ih =>
    by_cases hxy : renameLe x y = true
    · rw [insertDesc, if_pos hxy]
    · rw [insertDesc, if_neg hxy]
      exact (ih.cons y).trans (List.Perm.swap x y ys)

/-- Helper: membership after insertion. -/
theorem mem_insertDesc {a x : Usage} {l : List Usage} (h : a ∈ insertDesc x l) :
    a = x ∨ a ∈ l := by
  have := (insertDesc_perm x l).subset h
  simpa using this

/-- Helper: insertion preserves the reverse-sorted pairwise invariant. -/
theorem pairwise_insertDesc (x : Usage) (l : List Usage)
    (h : l.Pairwise (fun a b => renameLe a b = true)) :
    (insertDesc x l).Pairwise (fun a b => renameLe a b = true) := by
  induction l with
  | nil => simp [insertDesc]
  | cons y ys ih =>
    rcases List.pairwise_cons.mp h with ⟨hy, hys⟩
    by_cases hxy : renameLe x y = true
    · rw [insertDesc, if_pos hxy]
      refine List.pairwise_cons.mpr ⟨?_, h⟩
      intro z hz
      rcases List.mem_cons.mp hz with rfl | hz'
      · exact hxy
      · exact renameLe_trans x y z hxy (hy z hz')
    · rw [insertDesc, if_neg hxy]
      refine List.pairwise_cons.mpr ⟨?_, ih hys⟩
      intro z hz
      rcases mem_insertDesc hz with rfl | hz'
      · have htot := renameLe_total z y
        rw [Bool.eq_false_iff.mpr hxy] at htot
        simpa using htot
      · exact hy z hz'

/-- Helper: the rename sort is a permutation of its input. -/
theorem sortedRename_perm (us : List Usage) : (sortedRename us).Perm us := by
  induction us with
  | nil => exact List.Perm.refl _
  | cons x xs ih => exact (insertDesc_perm x (sortedRename xs)).trans (ih.cons x)

/-- Helper: the rename sort is reverse-sorted by key. -/
theorem sortedRename_pairwise (us : List Usage) :
    (sortedRename us).Pairwise (fun a b => renameLe a b = true) := by
  induction us with
  | nil => exact List.Pairwise.nil
  | cons x xs ih => exact pairwise_insertDesc x (sortedRename xs) ih

/-- Editor effect issued by the rename routine. -/
inductive Effect where
  | echo (msg : String)
  | resolveUsages
  | switchBuffer (path : String)
  | saveView
  | setCursor (pos : Nat × Nat)
  | editCmd (origLen : Nat) (replace : String)
  | restoreView
  | tabnext (n : Nat)
  | wincmd (n : Nat)

/-- Model of adding a name to the `buffers` set of `do_rename`. -/
def insertBuf (s : String) (bufs : List String) : List String :=
  if bufs.contains s then bufs else s :: bufs

/-- Model of the edit loop of `do_rename` over the sorted usage list:
skip builtin usages; switch buffers when the usage lies in another file
(`bufOpen` tells whether `new_buffer` succeeds, with an echoed failure
message and a skip when it does not); then save the view, move the cursor
to the usage position, issue the replacing edit command, and restore the
view. Returns the final current buffer, the `buffers` set, and the trace. -/
def renameLoop (abspath : String → String) (bufOpen : String → Bool) (origLen : Nat)
    (replace : String) : List Usage → String → List String →
    String × List String × List Effect
  | [], curBuf, bufs => (curBuf, bufs, [])
  | r :: rest, curBuf, bufs =>
    if r.in_builtin_module then renameLoop abspath bufOpen origLen replace rest curBuf bufs
    else if abspath curBuf == r.module_path then
      let res := renameLoop abspath bufOpen origLen replace rest curBuf (insertBuf curBuf bufs)
      (res.1, res.2.1,
        Effect.saveView :: Effect.setCursor r.start_pos :: Effect.editCmd origLen replace ::
          Effect.restoreView :: res.2.2)
    else if bufOpen r.module_path then
      let res := renameLoop abspath bufOpen origLen replace rest r.module_path
          (insertBuf r.module_path bufs)
      (res.1, res.2.1,
        Effect.switchBuffer r.module_path :: Effect.saveView :: Effect.setCursor r.start_pos ::
          Effect.editCmd origLen replace :: Effect.restoreView :: res.2.2)
    else
      let res := renameLoop abspath bufOpen origLen replace rest curBuf bufs
      (res.1, res.2.1,
        Effect.echo ("Jedi-vim: failed to create buffer window for " ++ r.module_path ++ "!") ::
          res.2.2)

/-- Final user message of `do_rename`. -/
def finalMsg (renameCount bufferCount : Nat) : String :=
  if 1 < bufferCount then
    "Jedi did " ++ Nat.repr renameCount ++ " renames in " ++ Nat.repr bufferCount ++ " buffers!"
  else
    "Jedi did " ++ Nat.repr renameCount ++ " renames!"

/-- Model of `do_rename`: an empty replacement is rejected up front with a
message; otherwise the original word is resolved, the usages are resolved
(`goto(mode="related_name")`, the `resolveUsages` event) and sorted in
reverse by `(module_path, start_pos)`, the edit loop runs, and the saved
tab and window are restored before the final count message. -/
def do_rename (abspath : String → String) (bufOpen : String → Bool) (curBuf : String)
    (origVar : String) (savedTab savedWin : Nat) (replace : String) (orig : Option String)
    (usages : List Usage) : List Effect :=
  if replace.length = 0 then [Effect.echo ("No rename possible without name.")]
  else
    let origStr := orig.getD origVar
    let temp_rename := sortedRename usages
    let res := renameLoop abspath bufOpen origStr.length replace temp_rename curBuf []
    Effect.resolveUsages :: res.2.2 ++
      [Effect.tabnext savedTab, Effect.wincmd savedWin,
       Effect.echo (finalMsg temp_rename.length res.2.1.length)]

/-- Positions at which the rename trace issues its edits (each edit is
immediately preceded by the cursor move to the usage's `start_pos`). -/
def editPositions (tr : List Effect) : List (Nat × Nat) :=
  tr.filterMap (fun e => match e with | Effect.setCursor p => some p | _ => none)

/-- Helper: `keyLt` on keys sharing the module path is the position
comparison. -/
theorem keyLt_same_module (m : String) (p q : Nat × Nat) :
    keyLt (m, p) (m, q) = posLt p q := by
  simp [keyLt, posLt, charListLt_irrefl]

/-- Helper: when every buffer opens, the loop edits exactly the
non-builtin usages, in list order. -/
theorem editPositions_renameLoop (abspath : String → String) (origLen : Nat)
    (replace : String) :
    ∀ (us : List Usage) (curBuf : String) (bufs : List String),
    editPositions (renameLoop abspath (fun _ => true) origLen replace us curBuf bufs).2.2
      = (us.filter (fun u => !u.in_builtin_module)).map (fun u => u.start_pos) := by
  intro us
  induction us with
  | nil =>
    intro curBuf bufs
    rfl
  | cons r rest ih =>
    intro curBuf bufs
    cases hb : r.in_builtin_module
    · cases hc : (abspath curBuf == r.module_path)
      · have ih' := ih r.module_path (insertBuf r.module_path bufs)
        simp only [editPositions] at ih'
        simp [renameLoop, hb, hc, editPositions, ih']
      · have ih' := ih curBuf (insertBuf curBuf bufs)
        simp only [editPositions] at ih'
        simp [renameLoop, hb, hc, editPositions, ih']
    · have ih' := ih curBuf bufs
      simp only [editPositions] at ih'
      simp [renameLoop, hb, editPositions, ih']

/-- Helper: the edits of `do_rename` are those of its loop. -/
theorem editPositions_do_rename (abspath : String → String) (bufOpen : String → Bool)
    (curBuf origVar : String) (savedTab savedWin : Nat) (replace : String)
    (orig : Option String) (usages : List Usage) (hlen : replace.length ≠ 0) :
    editPositions (do_rename abspath bufOpen curBuf origVar savedTab savedWin replace orig usages)
      = editPositions (renameLoop abspath bufOpen (orig.getD origVar).length replace
          (sortedRename usages) curBuf []).2.2 := by
  simp [do_rename, hlen, editPositions, List.filterMap_append]

/-- Claim C7: `do_rename` with an empty replacement reports
`No rename possible without name.` and returns before resolving usages or
issuing any buffer edit; the trace is that single echo whatever the
editor state or usages would have been. -/
theorem do_rename_empty_name (abspath : String → String) (bufOpen : String → Bool)
    (curBuf origVar : String) (savedTab savedWin : Nat) (replace : String)
    (orig : Option String) (usages : List Usage) (h : replace.length = 0) :
    do_rename abspath bufOpen curBuf origVar savedTab savedWin replace orig usages
      = [Effect.echo ("No rename possible without name.")] ∧
    editPositions (do_rename abspath bufOpen curBuf origVar savedTab savedWin replace orig
        usages) = [] ∧
    Effect.resolveUsages ∉
      do_rename abspath bufOpen curBuf origVar savedTab savedWin replace orig usages := by
  have hmain : do_rename abspath bufOpen curBuf origVar savedTab savedWin replace orig usages
      = [Effect.echo ("No rename possible without name.")] := by
    simp [do_rename, h]
  refine ⟨hmain, ?_, ?_⟩
  · rw [hmain]
    rfl
  · rw [hmain]
    simp

/-- Witness for claim C7 at a concrete empty replacement. -/
theorem do_rename_empty_name_witness :
    do_rename id (fun _ => true) ("/a.py") ("old") 1 1 ("") none []
      = [Effect.echo ("No rename possible without name.")] :=
  (do_rename_empty_name id (fun _ => true) ("/a.py") ("old") 1 1 ("") none [] rfl).1

/-- Claim C8: for a non-empty replacement, `do_rename` processes the
resolved usages as a permutation sorted in strictly descending key order
`(module_path, start_pos)` (strict as the usage sites carry pairwise
distinct keys), so within each file the largest position is edited first;
when every buffer opens, the edit positions issued are exactly the
non-builtin usages' positions in that descending order. -/
theorem do_rename_descending_order (abspath : String → String) (curBuf origVar : String)
    (savedTab savedWin : Nat) (replace : String) (orig : Option String) (usages : List Usage)
    (hlen : replace.length ≠ 0)
    (hdist : usages.Pairwise (fun a b => renameKey a ≠ renameKey b)) :
    (sortedRename usages).Perm usages ∧
    (sortedRename usages).Pairwise (fun a b => keyLt (renameKey b) (renameKey a) = true) ∧
    (sortedRename usages).Pairwise (fun a b => a.module_path = b.module_path →
       posLt b.start_pos a.start_pos = true) ∧
    editPositions (do_rename abspath (fun _ => true) curBuf origVar savedTab savedWin replace
        orig usages)
      = ((sortedRename usages).filter (fun u => !u.in_builtin_module)).map
          (fun u => u.start_pos) := by
  have hperm := sortedRename_perm usages
  have hdist' : (sortedRename usages).Pairwise (fun a b => renameKey a ≠ renameKey b) :=
    (List.Perm.pairwise_iff (fun hab he => hab he.symm) hperm).mpr hdist
  have hstrict : (sortedRename usages).Pairwise
      (fun a b => keyLt (renameKey b) (renameKey a) = true) := by
    have hboth := (sortedRename_pairwise usages).and hdist'
    refine hboth.imp ?_
    rintro a b ⟨hle, hne⟩
    have hab : keyLt (renameKey a) (renameKey b) = false := by
      simpa [renameLe] using hle
    cases hba : keyLt (renameKey b) (renameKey a)
    · exact absurd (keyLt_connected _ _ hab hba) hne
    · rfl
  refine ⟨hperm, hstrict, ?_, ?_⟩
  · refine hstrict.imp ?_
    intro a b hba hmodeq
    have hba' : keyLt (b.module_path, b.start_pos) (a.module_path, a.start_pos) = true := by
      simpa [renameKey] using hba
    rw [← hmodeq, keyLt_same_module] at hba'
    exact hba'
  · rw [editPositions_do_rename abspath (fun _ => true) curBuf origVar savedTab savedWin
        replace orig usages hlen]
    exact editPositions_renameLoop abspath (orig.getD origVar).length replace
      (sortedRename usages) curBuf []

/-- Witness for claim C8 at three concrete usages (two in one file, one
builtin in another), with distinct keys and a non-empty replacement. -/
theorem do_rename_descending_order_witness :
    (sortedRename ([⟨("/a.py"), (1, 2), false⟩, ⟨("/a.py"), (3, 1), false⟩,
        ⟨("/b.py"), (2, 0), true⟩] : List Usage)).Perm
      ([⟨("/a.py"), (1, 2), false⟩, ⟨("/a.py"), (3, 1), false⟩,
        ⟨("/b.py"), (2, 0), true⟩] : List Usage) ∧
    (sortedRename ([⟨("/a.py"), (1, 2), false⟩, ⟨("/a.py"), (3, 1), false⟩,
        ⟨("/b.py"), (2, 0), true⟩] : List Usage)).Pairwise
      (fun a b => keyLt (renameKey b) (renameKey a) = true) ∧
    (sortedRename ([⟨("/a.py"), (1, 2), false⟩, ⟨("/a.py"), (3, 1), false⟩,
        ⟨("/b.py"), (2, 0), true⟩] : List Usage)).Pairwise
      (fun a b => a.module_path = b.module_path → posLt b.start_pos a.start_pos = true) ∧
    editPositions (do_rename id (fun _ => true) ("/a.py") ("old") 1 1 ("new") none
        ([⟨("/a.py"), (1, 2), false⟩, ⟨("/a.py"), (3, 1), false⟩,
          ⟨("/b.py"), (2, 0), true⟩] : List Usage))
      = ((sortedRename ([⟨("/a.py"), (1, 2), false⟩, ⟨("/a.py"), (3, 1), false⟩,
          ⟨("/b.py"), (2, 0), true⟩] : List Usage)).filter
            (fun u => !u.in_builtin_module)).map (fun u => u.start_pos) :=
  do_rename_descending_order id ("/a.py") ("old") 1 1 ("new") none
    ([⟨("/a.py"), (1, 2), false⟩, ⟨("/a.py"), (3, 1), false⟩,
      ⟨("/b.py"), (2, 0), true⟩] : List Usage) (by decide) (by decide)
